import Mathlib

/-!
# Verification of the `lab-audio` Euclidean rhythm generator

Shallow embedding of the Go sources `cmd/euclidgen/main.go`,
`cmd/euclidgen/examples.go` and the unnamed source file (all three contain
byte-identical copies of `bjorklund`, `synthDrum` and the mixing loop).

Go `int` values are modelled as `Nat` where the source only ever holds
non-negative values (steps, pulses, pattern symbols, indices, lengths) and as
`Int` for audio samples (which are signed).  None of the verified claims
depends on 64-bit overflow behaviour, so machine arithmetic is modelled as
unbounded integer arithmetic, with every integer division written explicitly
in the source's evaluation order.
-/

namespace LabAudio

/-!
## Pattern generator (`bjorklund`)

The Go merge loop mutates a slice of groups in place:

```go
for {
    count := 0
    for i := 0; i < len(groups)-1; i++ {
        if len(groups[i]) == 1 && len(groups[len(groups)-1]) == 1 &&
           groups[i][0] != groups[len(groups)-1][0] {
            groups[i] = append(groups[i], groups[len(groups)-1][0])
            groups = groups[:len(groups)-1]
            count++
        }
        // i++ in both branches
    }
    if count == 0 { break }
}
```

`passAux` models one run of the inner `for i` loop as a left-to-right zipper:
`acc` holds `groups[0..i]` already processed (in reverse), `todo` holds
`groups[i..]`.  The Go loop condition `i < len(groups)-1` (with `len(groups)`
re-evaluated after in-place shrinking) is exactly "`todo` has at least two
elements"; `groups[len(groups)-1]` is the last element of `todo` (its index is
`> i` throughout the pass, merged groups live in `acc` and are never `last`
again within the pass).  On a merge the current group (grown by the last
group's single symbol) is finished and the last group is dropped; in both
branches `i` advances.

The `fuel` argument makes the recursion structural so that the definitions
evaluate by kernel reduction; each iteration consumes at least one element of
`todo`, so `todo.length` fuel always suffices (the fuel-0 branch returns the
unprocessed remainder unchanged, and is provably never reached from
`onePass`).
-/

/-- One pass of the inner merge loop of `bjorklund` (zipper form of the Go
`for i` loop).  Returns the new group list and the number of merges
performed (`count`). -/
def passAux : Nat → List (List Nat) → List (List Nat) → Nat → List (List Nat) × Nat
  | 0, acc, todo, count => (acc.reverse ++ todo, count)
  | _ + 1, acc, [], count => (acc.reverse, count)
  | _ + 1, acc, [g], count => (acc.reverse ++ [g], count)
  | fuel + 1, acc, g :: r :: rs, count =>
    let last := (r :: rs).getLastD []
    if g.length = 1 ∧ last.length = 1 ∧ g.headD 0 ≠ last.headD 0 then
      passAux fuel ((g ++ [last.headD 0]) :: acc) ((r :: rs).dropLast) (count + 1)
    else
      passAux fuel (g :: acc) (r :: rs) count

/-- One full round of the Go inner loop, starting at `i = 0` with zero
merges counted. -/
def onePass (gs : List (List Nat)) : List (List Nat) × Nat :=
  passAux gs.length [] gs 0

/-- The outer `for { ... if count == 0 { break } }` loop of `bjorklund`.
Each round that merges shrinks the group list by at least one, so
`gs.length` rounds of fuel always suffice (proved below). -/
def mergeLoopAux : Nat → List (List Nat) → List (List Nat)
  | 0, gs => gs
  | fuel + 1, gs =>
    if (onePass gs).2 = 0 then (onePass gs).1 else mergeLoopAux fuel (onePass gs).1

/-- The merge loop run to its fixed point. -/
def mergeLoop (gs : List (List Nat)) : List (List Nat) :=
  mergeLoopAux gs.length gs

/-- Initial group list of `bjorklund`: `steps` singleton groups, the first
`pulses` of them holding a hit (`1`), the rest a rest (`0`), exactly as the
Go initialisation loop `if i < pulses { groups[i] = []int{1} } else { ... }`. -/
def initGroups (steps pulses : Nat) : List (List Nat) :=
  (List.range steps).map (fun i => if i < pulses then [1] else [0])

/-- `bjorklund` from the Go sources: edge cases for `pulses == 0` and
`pulses == steps`, otherwise the merge loop on the initial groups, flattened
in order (`pattern = append(pattern, g...)`). -/
def bjorklund (steps pulses : Nat) : List Nat :=
  if pulses = 0 then List.replicate steps 0
  else if pulses = steps then List.replicate steps 1
  else (mergeLoop (initGroups steps pulses)).flatten

/-!
## Synthesis engine (`render`)

The relevant part of `main` (identically `generateRhythm` in `examples.go`):

```go
beatMs := 60000 / bpm
totalSamples := sampleRate * steps * beatMs / 1000
out := make([]int, totalSamples)
for i, v := range pattern {
    if v == 1 {
        start := i * sampleRate * beatMs / 1000
        for j := 0; j < len(drum) && start+j < len(out); j++ {
            out[start+j] += drum[j]
        }
    }
}
```

The drum burst is an arbitrary `List Int` here (its synthesis in `synthDrum`
uses floating point and is not the subject of any claim; the claims quantify
over every burst).  All Go integer divisions are truncated `Nat` divisions in
the source's left-to-right evaluation order.
-/

/-- `beatMs := 60000 / bpm` (truncated integer division, as in Go). -/
def beatMs (bpm : Nat) : Nat := 60000 / bpm

/-- `totalSamples := sampleRate * steps * beatMs / 1000`, evaluated
left-to-right as in Go. -/
def totalSamples (sampleRate steps bpm : Nat) : Nat :=
  sampleRate * steps * beatMs bpm / 1000

/-- The inner mixing loop
`for j := 0; j < len(drum) && start+j < len(out); j++ { out[start+j] += drum[j] }`,
written structurally on the burst: position `start` walks forward while the
remaining burst is consumed, stopping at the end of `out` (the Go guard
`start+j < len(out)` fails for all later `j` once it fails, so stopping is
equivalent). -/
def mix : List Int → List Int → Nat → List Int
  | out, [], _ => out
  | out, d :: rest, start =>
    if start < out.length then mix (out.set start (out.getD start 0 + d)) rest (start + 1)
    else out

/-- The `for i, v := range pattern` loop of `render`: `i` is the running
pattern index, `bm` the precomputed `beatMs`. -/
def renderLoop : List Nat → Nat → List Int → List Int → Nat → Nat → List Int
  | [], _, out, _, _, _ => out
  | v :: rest, i, out, drum, sampleRate, bm =>
    renderLoop rest (i + 1)
      (if v = 1 then mix out drum (i * sampleRate * bm / 1000) else out)
      drum sampleRate bm

/-- The mixing pipeline of `main`/`generateRhythm`: a zero buffer of
`totalSamples` samples with the burst summed in at
`start = i * sampleRate * beatMs / 1000` for every hit index `i`. -/
def render (pattern : List Nat) (drum : List Int) (sampleRate steps bpm : Nat) : List Int :=
  renderLoop pattern 0 (List.replicate (totalSamples sampleRate steps bpm) 0)
    drum sampleRate (beatMs bpm)

/-!
## The spec's description of the mix offsets

§4.2 of the specification describes the hit offset as `i * samplesPerBeat`
with `samplesPerBeat = sampleRate * beatMs / 1000` truncated *before* the
multiplication by `i`.  The following definitions transcribe that wording
(they differ from the source only in the `start` expression) so that the two
can be compared.
-/

/-- The spec's `samplesPerBeat = sampleRate * beatMs / 1000` (truncated). -/
def samplesPerBeat (sampleRate bpm : Nat) : Nat :=
  sampleRate * beatMs bpm / 1000

/-- `renderLoop` as the spec words it: hit `i` is mixed at `i * spb` where
`spb` is the pre-truncated samples-per-beat. -/
def renderLoopSpec : List Nat → Nat → List Int → List Int → Nat → List Int
  | [], _, out, _, _ => out
  | v :: rest, i, out, drum, spb =>
    renderLoopSpec rest (i + 1)
      (if v = 1 then mix out drum (i * spb) else out)
      drum spb

/-- `render` as the spec words it (identical buffer, offsets
`i * samplesPerBeat`). -/
def renderSpecOffsets (pattern : List Nat) (drum : List Int) (sampleRate steps bpm : Nat) :
    List Int :=
  renderLoopSpec pattern 0 (List.replicate (totalSamples sampleRate steps bpm) 0)
    drum (samplesPerBeat sampleRate bpm)

/-!
## Checked-access model of the mixing loop

For the memory-safety claim the two slice accesses of the inner loop body
(`drum[j]` and `out[start+j]`) are modelled as checked reads through `·[·]?`,
with the whole loop failing (`none`) if either access were out of range.  The
loop is index-based exactly as in Go; the fuel `len(drum)` is enough because
`j` increases by one per iteration starting from `0`. -/

/-- Index-based checked mixing loop.  `none` would signal an out-of-range
slice access inside the loop body. -/
def mixCheckedAux : Nat → List Int → List Int → Nat → Nat → Option (List Int)
  | 0, out, _, _, _ => some out
  | fuel + 1, out, drum, start, j =>
    if j < drum.length ∧ start + j < out.length then
      drum[j]?.bind fun d =>
        out[start + j]?.bind fun o =>
          mixCheckedAux fuel (out.set (start + j) (o + d)) drum start (j + 1)
    else some out

/-- The checked mixing loop from `j = 0`. -/
def mixChecked (out drum : List Int) (start : Nat) : Option (List Int) :=
  mixCheckedAux drum.length out drum start 0

/-- The pattern loop with checked mixing; a `none` from any hit aborts. -/
def renderLoopChecked : List Nat → Nat → List Int → List Int → Nat → Nat → Option (List Int)
  | [], _, out, _, _, _ => some out
  | v :: rest, i, out, drum, sampleRate, bm =>
    if v = 1 then
      (mixChecked out drum (i * sampleRate * bm / 1000)).bind fun out2 =>
        renderLoopChecked rest (i + 1) out2 drum sampleRate bm
    else renderLoopChecked rest (i + 1) out drum sampleRate bm

/-- `render` with every slice access of the mixing loop checked. -/
def renderChecked (pattern : List Nat) (drum : List Int) (sampleRate steps bpm : Nat) :
    Option (List Int) :=
  renderLoopChecked pattern 0 (List.replicate (totalSamples sampleRate steps bpm) 0)
    drum sampleRate (beatMs bpm)



theorem dropLast_append_getLastD {α : Type} (d : α) :
    ∀ (l : List α), l ≠ [] → l.dropLast ++ [l.getLastD d] = l
  | [a], _ => rfl
  | a :: b :: t, _ => by
    have ih := dropLast_append_getLastD d (b :: t) (by simp)
    simp only [List.getLastD_cons] at ih
    simp only [List.dropLast_cons₂, List.getLastD_cons, List.cons_append]
    rw [ih]

theorem length_one_eq (l : List Nat) (h : l.length = 1) : l = [l.headD 0] := by
  rcases List.length_eq_one.mp h with ⟨a, rfl⟩; rfl

theorem getLastD_mem {α : Type} (d : α) : ∀ (l : List α), l ≠ [] → l.getLastD d ∈ l
  | [a], _ => by simp
  | a :: b :: t, _ => by
    have ih := getLastD_mem d (b :: t) (by simp)
    simp only [List.getLastD_cons] at ih ⊢
    exact List.mem_cons_of_mem _ ih

theorem passAux_zero (acc todo : List (List Nat)) (count : Nat) :
    passAux 0 acc todo count = (acc.reverse ++ todo, count) := rfl

theorem passAux_nil (fuel : Nat) (acc : List (List Nat)) (count : Nat) :
    passAux (fuel + 1) acc [] count = (acc.reverse, count) := rfl

theorem passAux_one (fuel : Nat) (acc : List (List Nat)) (g : List Nat) (count : Nat) :
    passAux (fuel + 1) acc [g] count = (acc.reverse ++ [g], count) := rfl

theorem passAux_cons_cons (fuel : Nat) (acc : List (List Nat)) (g r : List Nat)
    (rs : List (List Nat)) (count : Nat) :
    passAux (fuel + 1) acc (g :: r :: rs) count =
      if g.length = 1 ∧ ((r :: rs).getLastD []).length = 1 ∧
          g.headD 0 ≠ ((r :: rs).getLastD []).headD 0 then
        passAux fuel ((g ++ [((r :: rs).getLastD []).headD 0]) :: acc)
          ((r :: rs).dropLast) (count + 1)
      else passAux fuel (g :: acc) (r :: rs) count := rfl

theorem passAux_mu (μ : List Nat → Nat) (hμ : ∀ a b, μ (a ++ b) = μ a + μ b) :
    ∀ (fuel : Nat) (acc todo : List (List Nat)) (count : Nat),
      μ (passAux fuel acc todo count).1.flatten = μ acc.reverse.flatten + μ todo.flatten := by
  have h0 : μ [] = 0 := by have := hμ [] []; simp at this; omega
  intro fuel
  induction fuel with
  | zero =>
    intro acc todo count
    simp [passAux_zero, List.flatten_append, hμ]
  | succ fuel ih =>
    intro acc todo count
    match todo with
    | [] => simp [passAux_nil, h0]
    | [g] => simp [passAux_one, List.flatten_append, hμ, h0]
    | g :: r :: rs =>
      rw [passAux_cons_cons]
      split_ifs with hcond
      · rw [ih]
        set x := ((r :: rs).getLastD []).headD 0 with hx
        have hl : (r :: rs).getLastD [] = [x] := length_one_eq _ hcond.2.1
        have hsplit : (r :: rs).dropLast ++ [(r :: rs).getLastD []] = r :: rs :=
          dropLast_append_getLastD [] _ (by simp)
        have hmu2 : μ (r :: rs).flatten = μ (r :: rs).dropLast.flatten + μ [x] := by
          conv_lhs => rw [← hsplit]
          rw [List.flatten_append, hl]
          simp only [List.flatten_cons, List.flatten_nil, List.append_nil, hμ]
        simp only [List.flatten_cons, hμ] at hmu2
        simp only [List.reverse_cons, List.flatten_append, List.flatten_cons,
          List.flatten_nil, List.append_nil, hμ]
        omega
      · rw [ih]
        simp only [List.reverse_cons, List.flatten_append, List.flatten_cons,
          List.flatten_nil, List.append_nil, hμ, h0]
        omega

theorem passAux_length :
    ∀ (fuel : Nat) (acc todo : List (List Nat)) (count : Nat),
      (passAux fuel acc todo count).1.length + (passAux fuel acc todo count).2 =
        acc.length + todo.length + count := by
  intro fuel
  induction fuel with
  | zero => intro acc todo count; simp [passAux_zero]
  | succ fuel ih =>
    intro acc todo count
    match todo with
    | [] => simp [passAux_nil]
    | [g] => simp [passAux_one]
    | g :: r :: rs =>
      rw [passAux_cons_cons]
      split_ifs with hcond
      · rw [ih]
        simp only [List.length_cons, List.length_dropLast]
        omega
      · rw [ih]
        simp only [List.length_cons]
        omega

theorem passAux_count_le :
    ∀ (fuel : Nat) (acc todo : List (List Nat)) (count : Nat),
      count ≤ (passAux fuel acc todo count).2 := by
  intro fuel
  induction fuel with
  | zero => intro acc todo count; simp [passAux_zero]
  | succ fuel ih =>
    intro acc todo count
    match todo with
    | [] => simp [passAux_nil]
    | [g] => simp [passAux_one]
    | g :: r :: rs =>
      rw [passAux_cons_cons]
      split_ifs with hcond
      · exact le_trans (Nat.le_succ count) (ih _ _ _)
      · exact ih _ _ _

theorem passAux_count_eq :
    ∀ (fuel : Nat) (acc todo : List (List Nat)) (count : Nat),
      (passAux fuel acc todo count).2 = count →
      (passAux fuel acc todo count).1 = acc.reverse ++ todo := by
  intro fuel
  induction fuel with
  | zero => intro acc todo count _; simp [passAux_zero]
  | succ fuel ih =>
    intro acc todo count h
    match todo with
    | [] => simp [passAux_nil]
    | [g] => simp [passAux_one]
    | g :: r :: rs =>
      rw [passAux_cons_cons] at h ⊢
      split_ifs at h ⊢ with hcond
      · exfalso
        have hle := passAux_count_le fuel
          ((g ++ [((r :: rs).getLastD []).headD 0]) :: acc) ((r :: rs).dropLast) (count + 1)
        omega
      · rw [ih _ _ _ h]
        simp

theorem passAux_ne_nil :
    ∀ (fuel : Nat) (acc todo : List (List Nat)) (count : Nat),
      acc ≠ [] ∨ todo ≠ [] → (passAux fuel acc todo count).1 ≠ [] := by
  intro fuel
  induction fuel with
  | zero =>
    intro acc todo count h
    rcases h with h | h <;> simp [passAux_zero, h]
  | succ fuel ih =>
    intro acc todo count h
    match todo with
    | [] =>
      rcases h with h | h
      · simp [passAux_nil, h]
      · simp at h
    | [g] => simp [passAux_one]
    | g :: r :: rs =>
      rw [passAux_cons_cons]
      split_ifs with hcond
      · exact ih _ _ _ (Or.inl (by simp))
      · exact ih _ _ _ (Or.inl (by simp))

theorem passAux_const (a : Nat) :
    ∀ (fuel : Nat) (acc todo : List (List Nat)) (count : Nat),
      (∀ g ∈ todo, g = [a]) → passAux fuel acc todo count = (acc.reverse ++ todo, count) := by
  intro fuel
  induction fuel with
  | zero => intro acc todo count _; simp [passAux_zero]
  | succ fuel ih =>
    intro acc todo count h
    match todo with
    | [] => simp [passAux_nil]
    | [g] => simp [passAux_one]
    | g :: r :: rs =>
      rw [passAux_cons_cons]
      have hg : g = [a] := h g (by simp)
      have hlast : (r :: rs).getLastD [] = [a] :=
        h _ (List.mem_cons_of_mem _ (getLastD_mem [] (r :: rs) (by simp)))
      rw [if_neg (by rw [hg, hlast]; simp)]
      rw [ih (g :: acc) (r :: rs) count (fun g' hg' => h g' (List.mem_cons_of_mem _ hg'))]
      simp

theorem onePass_mu (μ : List Nat → Nat) (hμ : ∀ a b, μ (a ++ b) = μ a + μ b)
    (gs : List (List Nat)) : μ (onePass gs).1.flatten = μ gs.flatten := by
  have h0 : μ [] = 0 := by have := hμ [] []; simp at this; omega
  have := passAux_mu μ hμ gs.length [] gs 0
  simpa [h0] using this

theorem onePass_length (gs : List (List Nat)) :
    (onePass gs).1.length + (onePass gs).2 = gs.length := by
  simpa using passAux_length gs.length [] gs 0

theorem onePass_fix (gs : List (List Nat)) (h : (onePass gs).2 = 0) :
    (onePass gs).1 = gs := by
  simpa using passAux_count_eq gs.length [] gs 0 h

theorem onePass_ne_nil (gs : List (List Nat)) (h : gs ≠ []) : (onePass gs).1 ≠ [] :=
  passAux_ne_nil gs.length [] gs 0 (Or.inr h)

theorem onePass_const (a : Nat) (gs : List (List Nat)) (h : ∀ g ∈ gs, g = [a]) :
    onePass gs = (gs, 0) := by
  simpa using passAux_const a gs.length [] gs 0 h

theorem mergeLoopAux_mu (μ : List Nat → Nat) (hμ : ∀ a b, μ (a ++ b) = μ a + μ b) :
    ∀ (fuel : Nat) (gs : List (List Nat)),
      μ (mergeLoopAux fuel gs).flatten = μ gs.flatten := by
  intro fuel
  induction fuel with
  | zero => intro gs; rfl
  | succ fuel ih =>
    intro gs
    rw [mergeLoopAux]
    split_ifs with h
    · exact onePass_mu μ hμ gs
    · rw [ih]; exact onePass_mu μ hμ gs

theorem mergeLoopAux_ne_nil :
    ∀ (fuel : Nat) (gs : List (List Nat)), gs ≠ [] → mergeLoopAux fuel gs ≠ [] := by
  intro fuel
  induction fuel with
  | zero => intro gs h; exact h
  | succ fuel ih =>
    intro gs h
    rw [mergeLoopAux]
    split_ifs with hc
    · exact onePass_ne_nil gs h
    · exact ih _ (onePass_ne_nil gs h)

theorem mergeLoopAux_fixpoint :
    ∀ (fuel : Nat) (gs : List (List Nat)), gs.length ≤ fuel →
      (onePass (mergeLoopAux fuel gs)).2 = 0 := by
  intro fuel
  induction fuel with
  | zero =>
    intro gs h
    have : gs = [] := List.length_eq_zero.mp (Nat.le_zero.mp h)
    subst this
    rfl
  | succ fuel ih =>
    intro gs h
    rw [mergeLoopAux]
    split_ifs with hc
    · rw [onePass_fix gs hc]; exact hc
    · have hlen := onePass_length gs
      exact ih _ (by omega)

theorem mergeLoop_mu (μ : List Nat → Nat) (hμ : ∀ a b, μ (a ++ b) = μ a + μ b)
    (gs : List (List Nat)) : μ (mergeLoop gs).flatten = μ gs.flatten :=
  mergeLoopAux_mu μ hμ gs.length gs

theorem mergeLoop_fixpoint (gs : List (List Nat)) : (onePass (mergeLoop gs)).2 = 0 :=
  mergeLoopAux_fixpoint gs.length gs le_rfl

theorem mergeLoop_ne_nil (gs : List (List Nat)) (h : gs ≠ []) : mergeLoop gs ≠ [] :=
  mergeLoopAux_ne_nil gs.length gs h

theorem mergeLoop_const (a : Nat) (gs : List (List Nat)) (h : ∀ g ∈ gs, g = [a]) :
    mergeLoop gs = gs := by
  rw [mergeLoop]
  cases hn : gs.length with
  | zero => rfl
  | succ n => rw [mergeLoopAux, onePass_const a gs h]; simp

theorem flatten_map_singleton (f : Nat → Nat) :
    ∀ (l : List Nat), (l.map fun i => [f i]).flatten = l.map f := by
  intro l
  induction l with
  | nil => rfl
  | cons a t ih => simp [ih]

theorem initGroups_flatten (steps pulses : Nat) :
    (initGroups steps pulses).flatten =
      (List.range steps).map (fun i => if i < pulses then 1 else 0) := by
  rw [initGroups,
    show (fun i => if i < pulses then [1] else [0]) =
      (fun i => [if i < pulses then (1 : Nat) else 0]) from by funext i; split <;> rfl]
  exact flatten_map_singleton _ _

theorem count_one_range (p : Nat) :
    ∀ (n : Nat), ((List.range n).map fun i => if i < p then 1 else 0).count 1 = min p n := by
  intro n
  induction n with
  | zero => simp
  | succ n ih =>
    rw [List.range_succ, List.map_append, List.count_append, ih]
    by_cases h : n < p <;> simp [h] <;> omega

theorem initGroups_all_ones (steps pulses : Nat) (h : steps ≤ pulses) :
    ∀ g ∈ initGroups steps pulses, g = [1] := by
  intro g hg
  simp only [initGroups, List.mem_map, List.mem_range] at hg
  rcases hg with ⟨i, hi, rfl⟩
  rw [if_pos (by omega)]

theorem map_ite_lt_all_ones (steps pulses : Nat) (h : steps ≤ pulses) :
    ((List.range steps).map fun i => if i < pulses then 1 else 0) =
      List.replicate steps 1 := by
  rw [List.eq_replicate_iff]
  constructor
  · simp
  · intro b hb
    simp only [List.mem_map, List.mem_range] at hb
    rcases hb with ⟨i, hi, rfl⟩
    rw [if_pos (by omega)]

theorem bjorklund_gt_eq (steps pulses : Nat) (h : steps < pulses) :
    bjorklund steps pulses = List.replicate steps 1 := by
  rw [bjorklund, if_neg (by omega), if_neg (by omega),
    mergeLoop_const 1 _ (initGroups_all_ones steps pulses (by omega)),
    initGroups_flatten, map_ite_lt_all_ones steps pulses (by omega)]

/-- Claim C1, code-bug evaluation: at the failing input `(steps, pulses) = (8, 3)` the
source's `bjorklund` returns `1,0,1,0,1,0,0,0` (displayed `X.X.X...`), not the
Cuban tresillo `1,0,0,1,0,0,1,0` (`X..X..X.`) promised by its own doc comment
and by the spec. -/
theorem bjorklund_8_3_eval :
    bjorklund 8 3 = [1, 0, 1, 0, 1, 0, 0, 0] ∧
      bjorklund 8 3 ≠ [1, 0, 0, 1, 0, 0, 1, 0] := by decide

/-- Claim C2 counterexample: at `steps = 1`, `pulses = 2` (so `pulses > steps`)
the source's `bjorklund` does not fail: it returns the full all-hit pattern
`[1]`, refuting "fails with an InvalidSpec error and returns no partial
pattern". -/
theorem bjorklund_invalid_returns_full_pattern :
    bjorklund 1 2 = [1] ∧ bjorklund 1 2 ≠ [] := by decide

/-- Claim C2 amended: `bjorklund` performs no validation and never fails; for
every `pulses > steps` it returns the all-hit pattern of length `steps`
(empty when `steps = 0`). -/
theorem bjorklund_no_validation_all_hits (steps pulses : Nat) (h : steps < pulses) :
    bjorklund steps pulses = List.replicate steps 1 :=
  bjorklund_gt_eq steps pulses h

/-- Witness for the amended claim C2 at `(steps, pulses) = (2, 5)`. -/
theorem bjorklund_no_validation_all_hits_witness :
    2 < 5 ∧ bjorklund 2 5 = List.replicate 2 1 :=
  ⟨by decide, bjorklund_no_validation_all_hits 2 5 (by decide)⟩

/-- Claim C3: for every `steps ≥ 1` and `0 ≤ pulses ≤ steps`, the pattern has
length exactly `steps` and contains exactly `pulses` hits (value `1`). -/
theorem bjorklund_pulse_count (steps pulses : Nat) (h1 : 1 ≤ steps) (h2 : pulses ≤ steps) :
    (bjorklund steps pulses).length = steps ∧ (bjorklund steps pulses).count 1 = pulses := by
  rw [bjorklund]
  split_ifs with hp0 hps
  · subst hp0; simp [List.count_replicate]
  · subst hps; simp [List.count_replicate]
  · have hlen := mergeLoop_mu List.length (by simp) (initGroups steps pulses)
    have hcnt := mergeLoop_mu (fun l => l.count 1) (by simp [List.count_append])
      (initGroups steps pulses)
    rw [initGroups_flatten] at hlen hcnt
    rw [count_one_range] at hcnt
    constructor
    · rw [hlen]; simp
    · rw [hcnt]; omega

/-- Witness for claim C3 at `(steps, pulses) = (8, 3)`. -/
theorem bjorklund_pulse_count_witness :
    (1 ≤ 8 ∧ 3 ≤ 8) ∧ ((bjorklund 8 3).length = 8 ∧ (bjorklund 8 3).count 1 = 3) :=
  ⟨by decide, bjorklund_pulse_count 8 3 (by decide) (by decide)⟩

/-- Claim C7: `bjorklund 16 6` returns
`1,0,1,0,1,0,1,0,1,0,1,0,0,0,0,0` (displayed `X.X.X.X.X.X.....`), exactly as
the spec's fixture states. -/
theorem bjorklund_16_6_eval :
    bjorklund 16 6 = [1, 0, 1, 0, 1, 0, 1, 0, 1, 0, 1, 0, 0, 0, 0, 0] := by decide

/-- Claim C8: for `steps ≥ 1` and `pulses > steps`, `bjorklund` does not
fail: every initial group is `[1]`, the first merge round performs zero
merges, and the result is the all-hit pattern of length `steps`. -/
theorem bjorklund_pulses_exceed_steps (steps pulses : Nat)
    (h1 : 1 ≤ steps) (h2 : steps < pulses) :
    bjorklund steps pulses = List.replicate steps 1 ∧
      (onePass (initGroups steps pulses)).2 = 0 := by
  refine ⟨bjorklund_gt_eq steps pulses h2, ?_⟩
  rw [onePass_const 1 _ (initGroups_all_ones steps pulses (by omega))]

/-- Witness for claim C8 at `(steps, pulses) = (3, 4)`. -/
theorem bjorklund_pulses_exceed_steps_witness :
    (1 ≤ 3 ∧ 3 < 4) ∧ (bjorklund 3 4 = List.replicate 3 1 ∧
      (onePass (initGroups 3 4)).2 = 0) :=
  ⟨by decide, bjorklund_pulses_exceed_steps 3 4 (by decide) (by decide)⟩

/-- Claim C10: the merge loop of `bjorklund` terminates — every pairing round
either performs zero merges or strictly shrinks the group list, the loop's
result is a fixed point (a further round performs zero merges), and the final
group count stays at least `1`. -/
theorem bjorklund_merge_terminates (steps pulses : Nat)
    (h1 : 1 ≤ steps) (h2 : pulses ≤ steps) :
    (∀ gs : List (List Nat), (onePass gs).2 = 0 ∨ (onePass gs).1.length < gs.length) ∧
      (onePass (mergeLoop (initGroups steps pulses))).2 = 0 ∧
      1 ≤ (mergeLoop (initGroups steps pulses)).length := by
  refine ⟨?_, mergeLoop_fixpoint _, ?_⟩
  · intro gs
    have hlen := onePass_length gs
    by_cases hc : (onePass gs).2 = 0
    · exact Or.inl hc
    · exact Or.inr (by omega)
  · have hne : initGroups steps pulses ≠ [] := by
      simp only [initGroups, ne_eq, List.map_eq_nil_iff, List.range_eq_nil]
      omega
    exact List.length_pos.mpr (mergeLoop_ne_nil _ hne)

/-- Witness for claim C10 at `(steps, pulses) = (8, 3)`, with the
round-decrease conjunct instantiated at the concrete group list
`[[1], [0]]`. -/
theorem bjorklund_merge_terminates_witness :
    (1 ≤ 8 ∧ 3 ≤ 8) ∧
      ((onePass [[1], [0]]).2 = 0 ∨ (onePass [[1], [0]]).1.length < 2) ∧
      (onePass (mergeLoop (initGroups 8 3))).2 = 0 ∧
      1 ≤ (mergeLoop (initGroups 8 3)).length :=
  ⟨by decide, by
    simpa using (bjorklund_merge_terminates 8 3 (by decide) (by decide)).1 [[1], [0]],
    (bjorklund_merge_terminates 8 3 (by decide) (by decide)).2.1,
    (bjorklund_merge_terminates 8 3 (by decide) (by decide)).2.2⟩

theorem mix_length :
    ∀ (drum out : List Int) (start : Nat), (mix out drum start).length = out.length := by
  intro drum
  induction drum with
  | nil => intro out start; rfl
  | cons d rest ih =>
    intro out start
    rw [mix]
    split_ifs with h
    · rw [ih]; simp
    · rfl

theorem renderLoop_length :
    ∀ (pattern : List Nat) (i : Nat) (out drum : List Int) (sampleRate bm : Nat),
      (renderLoop pattern i out drum sampleRate bm).length = out.length := by
  intro pattern
  induction pattern with
  | nil => intro i out drum sampleRate bm; rfl
  | cons v rest ih =>
    intro i out drum sampleRate bm
    rw [renderLoop, ih]
    split_ifs with h
    · exact mix_length drum out _
    · rfl

/-- Claim C5: the buffer produced by `render` has length exactly
`sampleRate * steps * (60000 / bpm) / 1000`, with `beatMs = 60000 / bpm`
truncated first and the division by `1000` truncated last. -/
theorem render_buffer_length (pattern : List Nat) (drum : List Int)
    (sampleRate steps bpm : Nat) (h1 : 1 ≤ sampleRate) (h2 : 1 ≤ bpm) (h3 : 1 ≤ steps) :
    (render pattern drum sampleRate steps bpm).length =
      sampleRate * steps * (60000 / bpm) / 1000 := by
  rw [render, renderLoop_length, List.length_replicate]
  rfl

/-- Witness for claim C5 at `pattern = [1]`, `drum = []`, `sampleRate = 1`,
`steps = 1`, `bpm = 60`. -/
theorem render_buffer_length_witness :
    (1 ≤ 1 ∧ 1 ≤ 60 ∧ 1 ≤ 1) ∧
      (render [1] [] 1 1 60).length = 1 * 1 * (60000 / 60) / 1000 :=
  ⟨by decide, render_buffer_length [1] [] 1 1 60 (by decide) (by decide) (by decide)⟩

/-- Claim C4 counterexample: at `sampleRate = 1`, `bpm = 61` (`beatMs = 983`,
`samplesPerBeat = 0`), `steps = 3`, pattern `[0,0,1]`, burst `[1]`, the source
mixes the hit at offset `2 * 1 * 983 / 1000 = 1`, while the spec's
`i * samplesPerBeat` offset is `0`: the two renderings differ
(`[0,1]` versus `[1,0]`). -/
theorem render_offset_counterexample :
    render [0, 0, 1] [1] 1 3 61 ≠ renderSpecOffsets [0, 0, 1] [1] 1 3 61 := by decide

theorem renderLoop_eq_spec (drum : List Int) (sampleRate bpm : Nat)
    (hdvd : 1000 ∣ sampleRate * beatMs bpm) :
    ∀ (pattern : List Nat) (i : Nat) (out : List Int),
      renderLoop pattern i out drum sampleRate (beatMs bpm) =
        renderLoopSpec pattern i out drum (samplesPerBeat sampleRate bpm) := by
  intro pattern
  induction pattern with
  | nil => intro i out; rfl
  | cons v rest ih =>
    intro i out
    have hstart : i * sampleRate * beatMs bpm / 1000 = i * samplesPerBeat sampleRate bpm := by
      rw [samplesPerBeat, Nat.mul_assoc, Nat.mul_div_assoc i hdvd]
    rw [renderLoop, renderLoopSpec, ih, hstart]

/-- Claim C4 amended: the source mixes the hit at index `i` starting at
buffer offset `i * sampleRate * beatMs / 1000` with the division applied
last; whenever `1000` divides `sampleRate * beatMs` (as at the repository's
defaults 44100 Hz / 120 BPM) this coincides with the spec's
`i * samplesPerBeat`, and the two renderings agree. -/
theorem render_offsets_eq_spec (pattern : List Nat) (drum : List Int)
    (sampleRate steps bpm : Nat) (h1 : 1 ≤ sampleRate) (h2 : 1 ≤ bpm)
    (hdvd : 1000 ∣ sampleRate * beatMs bpm) :
    render pattern drum sampleRate steps bpm =
      renderSpecOffsets pattern drum sampleRate steps bpm :=
  renderLoop_eq_spec drum sampleRate bpm hdvd pattern 0 _

/-- Witness for the amended claim C4 at `sampleRate = 1000`, `bpm = 60000`
(`beatMs = 1`, so `1000 ∣ sampleRate * beatMs`). -/
theorem render_offsets_eq_spec_witness :
    (1 ≤ 1000 ∧ 1 ≤ 60000 ∧ 1000 ∣ 1000 * beatMs 60000) ∧
      render [1] [2] 1000 1 60000 = renderSpecOffsets [1] [2] 1000 1 60000 :=
  ⟨by decide, render_offsets_eq_spec [1] [2] 1000 1 60000
    (by decide) (by decide) (by decide)⟩

theorem getD_set (l : List Int) (i n : Nat) (a : Int) :
    (l.set i a).getD n 0 = if i = n ∧ i < l.length then a else l.getD n 0 := by
  rw [List.getD_eq_getElem?_getD, List.getElem?_set, List.getD_eq_getElem?_getD]
  by_cases h1 : i = n
  · subst h1
    by_cases h2 : i < l.length
    · simp [h2]
    · rw [if_pos rfl, if_neg h2, if_neg (show ¬(i = i ∧ i < l.length) from by tauto),
        List.getElem?_eq_none (by omega)]
  · rw [if_neg h1, if_neg (show ¬(i = n ∧ i < l.length) from by tauto)]

theorem getD_replicate_zero (T n : Nat) : (List.replicate T (0 : Int)).getD n 0 = 0 := by
  rcases Nat.lt_or_ge n T with h | h
  · rw [List.getD_eq_getElem?_getD, List.getElem?_eq_getElem (by simpa using h)]
    simp
  · rw [List.getD_eq_getElem?_getD, List.getElem?_eq_none (by simpa using h)]
    rfl

theorem mix_getD :
    ∀ (drum out : List Int) (start : Nat), start + drum.length ≤ out.length →
      ∀ n, (mix out drum start).getD n 0 =
        out.getD n 0 +
          if start ≤ n ∧ n < start + drum.length then drum.getD (n - start) 0 else 0 := by
  intro drum
  induction drum with
  | nil =>
    intro out start h n
    rw [show mix out [] start = out from rfl, if_neg ?_, add_zero]
    simp only [List.length_nil]
    omega
  | cons d rest ih =>
    intro out start h n
    simp only [List.length_cons] at h
    rw [mix, if_pos (by omega)]
    rw [ih (out.set start (out.getD start 0 + d)) (start + 1) (by simp; omega) n]
    rw [getD_set]
    simp only [List.length_cons]
    by_cases hn : n = start
    · subst hn
      rw [if_pos ⟨rfl, by omega⟩, if_neg (by omega), if_pos (by omega)]
      rw [show n - n = 0 from by omega]
      rw [show (d :: rest).getD 0 0 = d from rfl]
      omega
    · rw [if_neg (by omega)]
      by_cases hw : start + 1 ≤ n ∧ n < start + 1 + rest.length
      · rw [if_pos hw, if_pos (by omega)]
        rw [show n - start = (n - (start + 1)) + 1 from by omega]
        rw [show (d :: rest).getD ((n - (start + 1)) + 1) 0 = rest.getD (n - (start + 1)) 0
          from rfl]
      · rw [if_neg hw, if_neg (by omega)]

theorem renderLoop_no_hit :
    ∀ (pattern : List Nat) (i : Nat) (out drum : List Int) (sampleRate bm : Nat),
      (∀ j < pattern.length, pattern.getD j 0 ≠ 1) →
      renderLoop pattern i out drum sampleRate bm = out := by
  intro pattern
  induction pattern with
  | nil => intro i out drum sampleRate bm _; rfl
  | cons v rest ih =>
    intro i out drum sampleRate bm h
    have hv : v ≠ 1 := by simpa using h 0 (by simp)
    rw [renderLoop, if_neg hv]
    exact ih (i + 1) out drum sampleRate bm
      (fun j hj => by simpa using h (j + 1) (by simpa using Nat.succ_lt_succ hj))

theorem renderLoop_single_hit :
    ∀ (pattern : List Nat) (k i : Nat) (out drum : List Int) (sampleRate bm : Nat),
      k < pattern.length → pattern.getD k 0 = 1 →
      (∀ j < pattern.length, j ≠ k → pattern.getD j 0 ≠ 1) →
      renderLoop pattern i out drum sampleRate bm =
        mix out drum ((i + k) * sampleRate * bm / 1000) := by
  intro pattern
  induction pattern with
  | nil => intro k i out drum sampleRate bm hk; simp at hk
  | cons v rest ih =>
    intro k i out drum sampleRate bm hk hhit honly
    match k with
    | 0 =>
      have hv : v = 1 := by simpa using hhit
      have hrest : ∀ j < rest.length, rest.getD j 0 ≠ 1 := fun j hj => by
        simpa using honly (j + 1) (by simpa using Nat.succ_lt_succ hj) (by omega)
      rw [renderLoop, if_pos hv, renderLoop_no_hit rest (i + 1) _ drum sampleRate bm hrest,
        Nat.add_zero]
    | k' + 1 =>
      have hv : v ≠ 1 := by simpa using honly 0 (by simp) (by omega)
      have hrest : ∀ j < rest.length, j ≠ k' → rest.getD j 0 ≠ 1 := fun j hj hjk => by
        simpa using honly (j + 1) (by simpa using Nat.succ_lt_succ hj) (by omega)
      rw [renderLoop, if_neg hv,
        ih k' (i + 1) out drum sampleRate bm (by simpa using hk) (by simpa using hhit) hrest,
        show i + 1 + k' = i + (k' + 1) from by omega]

/-- Claim C6 counterexample: at `sampleRate = 1`, `bpm = 61`, `steps = 3`,
single-hit pattern `[0,0,1]` (hit at `k = 2`), burst `[5]`:
`samplesPerBeat = 0`, so the claim's window is `[0, 1)` (well inside the
2-sample buffer, so its no-overlap hypothesis holds), yet the source's buffer
is `[0, 5]` — zero inside the claimed window and nonzero outside it. -/
theorem render_single_hit_counterexample :
    ¬ (∀ n < (render [0, 0, 1] [5] 1 3 61).length,
        (render [0, 0, 1] [5] 1 3 61).getD n 0 =
          if 2 * samplesPerBeat 1 61 ≤ n ∧ n < 2 * samplesPerBeat 1 61 + 1 then
            ([5] : List Int).getD (n - 2 * samplesPerBeat 1 61) 0
          else 0) := by decide

/-- Claim C6 amended: for a pattern with exactly one hit, at step `k`, whose
burst does not overlap the buffer end, and whenever `1000` divides
`sampleRate * beatMs` (so the source's offset `k * sampleRate * beatMs / 1000`
coincides with the claim's `k * samplesPerBeat`), the rendered buffer equals
the tone burst inside `[k * samplesPerBeat, k * samplesPerBeat + burstLength)`
and is zero outside it. -/
theorem render_single_hit_window (pattern : List Nat) (drum : List Int)
    (sampleRate steps bpm k : Nat)
    (hk : k < pattern.length) (hhit : pattern.getD k 0 = 1)
    (honly : ∀ j < pattern.length, j ≠ k → pattern.getD j 0 ≠ 1)
    (hdvd : 1000 ∣ sampleRate * beatMs bpm)
    (hfit : k * samplesPerBeat sampleRate bpm + drum.length ≤
      totalSamples sampleRate steps bpm) :
    ∀ n < (render pattern drum sampleRate steps bpm).length,
      (render pattern drum sampleRate steps bpm).getD n 0 =
        if k * samplesPerBeat sampleRate bpm ≤ n ∧
            n < k * samplesPerBeat sampleRate bpm + drum.length then
          drum.getD (n - k * samplesPerBeat sampleRate bpm) 0
        else 0 := by
  have hstart : (0 + k) * sampleRate * beatMs bpm / 1000 =
      k * samplesPerBeat sampleRate bpm := by
    rw [Nat.zero_add, samplesPerBeat, Nat.mul_assoc, Nat.mul_div_assoc k hdvd]
  have heq : render pattern drum sampleRate steps bpm =
      mix (List.replicate (totalSamples sampleRate steps bpm) 0) drum
        (k * samplesPerBeat sampleRate bpm) := by
    rw [render, renderLoop_single_hit pattern k 0 _ drum _ _ hk hhit honly, hstart]
  intro n _
  rw [heq, mix_getD drum _ _ (by simpa using hfit) n, getD_replicate_zero, zero_add]

/-- Witness for the amended claim C6 at `sampleRate = 1000`, `bpm = 60000`,
`steps = 2`, pattern `[0,1]` (hit at `k = 1`), burst `[7]`, instantiated at
buffer index `n = 1`. -/
theorem render_single_hit_window_witness :
    (1 < 2 ∧ ([0, 1] : List Nat).getD 1 0 = 1 ∧
        (∀ j < 2, j ≠ 1 → ([0, 1] : List Nat).getD j 0 ≠ 1) ∧
        1000 ∣ 1000 * beatMs 60000 ∧
        1 * samplesPerBeat 1000 60000 + 1 ≤ totalSamples 1000 2 60000) ∧
      1 < (render [0, 1] [7] 1000 2 60000).length ∧
      (render [0, 1] [7] 1000 2 60000).getD 1 0 =
        if 1 * samplesPerBeat 1000 60000 ≤ 1 ∧
            1 < 1 * samplesPerBeat 1000 60000 + 1 then
          ([7] : List Int).getD (1 - 1 * samplesPerBeat 1000 60000) 0
        else 0 :=
  ⟨by decide, by decide,
    render_single_hit_window [0, 1] [7] 1000 2 60000 1 (by decide) (by decide)
      (by decide) (by decide) (by decide) 1 (by decide)⟩

theorem mixCheckedAux_eq (drum : List Int) (start : Nat) :
    ∀ (fuel : Nat) (out : List Int) (j : Nat), drum.length ≤ j + fuel →
      mixCheckedAux fuel out drum start j = some (mix out (drum.drop j) (start + j)) := by
  intro fuel
  induction fuel with
  | zero =>
    intro out j h
    rw [List.drop_eq_nil_of_le (by omega)]
    rfl
  | succ fuel ih =>
    intro out j h
    rw [mixCheckedAux]
    split_ifs with hc
    · obtain ⟨h1, h2⟩ := hc
      rw [List.getElem?_eq_getElem h1, List.getElem?_eq_getElem h2]
      simp only [Option.some_bind]
      rw [ih _ (j + 1) (by omega)]
      rw [List.drop_eq_getElem_cons h1]
      conv_rhs => rw [mix]
      rw [if_pos h2]
      rw [show out.getD (start + j) 0 = out[start + j] from by
        rw [List.getD_eq_getElem?_getD, List.getElem?_eq_getElem h2]; rfl,
        Nat.add_assoc]
    · push_neg at hc
      rcases Nat.lt_or_ge j drum.length with hj | hj
      · rw [List.drop_eq_getElem_cons hj]
        conv_rhs => rw [mix]
        rw [if_neg (by omega)]
      · rw [List.drop_eq_nil_of_le (by omega)]
        rfl

theorem mixChecked_eq (out drum : List Int) (start : Nat) :
    mixChecked out drum start = some (mix out drum start) := by
  have h := mixCheckedAux_eq drum start drum.length out 0 (by omega)
  simpa using h

theorem renderLoopChecked_eq :
    ∀ (pattern : List Nat) (i : Nat) (out drum : List Int) (sampleRate bm : Nat),
      renderLoopChecked pattern i out drum sampleRate bm =
        some (renderLoop pattern i out drum sampleRate bm) := by
  intro pattern
  induction pattern with
  | nil => intro i out drum sampleRate bm; rfl
  | cons v rest ih =>
    intro i out drum sampleRate bm
    rw [renderLoopChecked, renderLoop]
    split_ifs with hv
    · rw [mixChecked_eq, Option.some_bind, ih]
    · rw [ih]

/-- Claim C9: every slice access (`drum[j]` and `out[start+j]`) performed by
the mixing loop is in bounds: the checked-access rendering never fails and
agrees with the unchecked one, for every pattern, burst and parameters. -/
theorem renderChecked_eq_render (pattern : List Nat) (drum : List Int)
    (sampleRate steps bpm : Nat) :
    renderChecked pattern drum sampleRate steps bpm =
      some (render pattern drum sampleRate steps bpm) :=
  renderLoopChecked_eq pattern 0 _ drum sampleRate (beatMs bpm)

end LabAudio
